import Mathlib

/-!
Shallow embedding of the directional smart-duplicate plugin (src/code.js)
and proofs about it.  Coordinates are rationals; the scene tree is
modelled as flat lists of elements addressed positionally, with element
identities as natural numbers.  Definitions mirror the source functions
`getDetectedGap`, `pushSiblings` (the breadth-first transitive variant),
`performDuplicate` (its sorting, clone placement and orchestration) and
`expandSectionIfNeeded`.
-/

namespace Duplicate

/-- Axis-aligned rectangle used during collision propagation
(the queue entries of pushSiblings). -/
structure Rect where
  x : ℚ
  y : ℚ
  width : ℚ
  height : ℚ
deriving Repr, DecidableEq

/-- A scene element: identity, geometry, locked flag. -/
structure Element where
  id : ℕ
  x : ℚ
  y : ℚ
  width : ℚ
  height : ℚ
  locked : Bool
deriving Repr, DecidableEq

/-- Horizontal axis component of a compass direction. -/
inductive HDir where
  | left
  | right
deriving Repr, DecidableEq

/-- Vertical axis component of a compass direction. -/
inductive VDir where
  | top
  | bottom
deriving Repr, DecidableEq

/-- A compass direction decomposed into its optional axis components;
`direction.includes('left')` etc. on the source's strings become the
four tests below. -/
structure Direction where
  horiz : Option HDir
  vert : Option VDir
deriving Repr, DecidableEq

/-- Test mirroring `direction.includes('left')`. -/
def Direction.incLeft (d : Direction) : Bool :=
  decide (d.horiz = some HDir.left)

/-- Test mirroring `direction.includes('right')`. -/
def Direction.incRight (d : Direction) : Bool :=
  decide (d.horiz = some HDir.right)

/-- Test mirroring `direction.includes('top')`. -/
def Direction.incTop (d : Direction) : Bool :=
  decide (d.vert = some VDir.top)

/-- Test mirroring `direction.includes('bottom')`. -/
def Direction.incBottom (d : Direction) : Bool :=
  decide (d.vert = some VDir.bottom)

/-- The sub-pixel tolerance margin (`const margin = 0.5`). -/
def margin : ℚ := 1 / 2

/-- Horizontal displacement applied by pushSiblings:
`left ? -shiftX : (right ? shiftX : 0)`. -/
def dispX (d : Direction) (shiftX : ℚ) : ℚ :=
  if d.incLeft then -shiftX else if d.incRight then shiftX else 0

/-- Vertical displacement applied by pushSiblings:
`top ? -shiftY : (bottom ? shiftY : 0)`. -/
def dispY (d : Direction) (shiftY : ℚ) : ℚ :=
  if d.incTop then -shiftY else if d.incBottom then shiftY else 0

/-- The starting target rectangle for the duplicate: the original's
rectangle offset by the directional shift (lines computing
`targetX`/`targetY` in pushSiblings). -/
def targetRect (o : Element) (d : Direction) (sx sy : ℚ) : Rect :=
  { x := o.x + dispX d sx, y := o.y + dispY d sy,
    width := o.width, height := o.height }

/-- A sibling's future rectangle enqueued by pushSiblings: its current
geometry offset by the same directional shift. -/
def shiftedRect (s : Element) (d : Direction) (sx sy : ℚ) : Rect :=
  { x := s.x + dispX d sx, y := s.y + dispY d sy,
    width := s.width, height := s.height }

/-- The margin-shrunk strict overlap test of pushSiblings
(`const overlaps = ...`). -/
def overlapsB (r : Rect) (s : Element) : Bool :=
  decide (s.x < r.x + r.width - margin) &&
  decide (s.x + s.width > r.x + margin) &&
  decide (s.y < r.y + r.height - margin) &&
  decide (s.y + s.height > r.y + margin)

/-- State threaded through one scan of `parent.children` against the
rectangle at the head of the queue: the `processed` id set, the indices
of `nodesToMove` collected so far, and the rectangles appended to
`checkQueue` by this scan. -/
structure ScanState where
  processed : List ℕ
  moved : List ℕ
  newRects : List Rect
deriving Repr, DecidableEq

/-- One pass of the `for (const sibling of parent.children)` loop, over
an index-annotated suffix of the children list. -/
def scanList (r : Rect) (d : Direction) (sx sy : ℚ) :
    List (ℕ × Element) → ScanState → ScanState
  | [], st => st
  | (i, s) :: rest, st =>
    scanList r d sx sy rest
      (if s.id ∈ st.processed then st
       else if overlapsB r s then
         { processed := s.id :: st.processed,
           moved := st.moved ++ [i],
           newRects := st.newRects ++ [shiftedRect s d sx sy] }
       else st)

/-- Scan all children against one rectangle. -/
def scanRect (children : List Element) (r : Rect) (d : Direction)
    (sx sy : ℚ) (st : ScanState) : ScanState :=
  scanList r d sx sy children.enum st

/-- Number of children whose id is not yet processed; the decreasing
part of the loop measure. -/
def countUnproc (children : List Element) (p : List ℕ) : ℕ :=
  (children.filter (fun c => decide (c.id ∉ p))).length

/-- The `while (checkQueue.length > 0)` worklist loop of pushSiblings,
written with explicit fuel.  Returns the collected `nodesToMove`
indices and the final processed id set.  `children.length + 1` fuel
always suffices (each iteration beyond the first is paid for by a
newly processed sibling). -/
def bfsAux (children : List Element) (d : Direction) (sx sy : ℚ) :
    ℕ → List Rect → List ℕ → List ℕ → List ℕ × List ℕ
  | 0, _, processed, moved => (moved, processed)
  | _ + 1, [], processed, moved => (moved, processed)
  | fuel + 1, r :: rest, processed, moved =>
    let st := scanRect children r d sx sy
      { processed := processed, moved := moved, newRects := [] }
    bfsAux children d sx sy fuel (rest ++ st.newRects) st.processed st.moved

/-- Displace one element by the directional shift (the
`for (const node of nodesToMove)` body). -/
def moveEl (d : Direction) (sx sy : ℚ) (c : Element) : Element :=
  { c with
      x := c.x + dispX d sx,
      y := c.y + dispY d sy }

/-- Apply the shift once to every collected index. -/
def applyMoves (d : Direction) (sx sy : ℚ) (moved : List ℕ) :
    ℕ → List Element → List Element
  | _, [] => []
  | i, c :: rest =>
    (if i ∈ moved then moveEl d sx sy c else c) ::
      applyMoves d sx sy moved (i + 1) rest

/-- Indices of the children collected into `nodesToMove` by the
worklist traversal seeded with the target rectangle, with `processed`
initialised from `excludedIds`. -/
def movedIdxs (o : Element) (d : Direction) (sx sy : ℚ)
    (excluded : List ℕ) (children : List Element) : List ℕ :=
  (bfsAux children d sx sy (children.length + 1)
    [targetRect o d sx sy] excluded []).1

/-- The collision propagation engine `pushSiblings(originalNode,
direction, shiftX, shiftY, excludedIds)`, acting on the parent's
children list (the caller handles the absent-parent no-op). -/
def pushSiblings (o : Element) (d : Direction) (sx sy : ℚ)
    (excluded : List ℕ) (children : List Element) : List Element :=
  applyMoves d sx sy (movedIdxs o d sx sy excluded children) 0 children

/-- Gap heuristic `getDetectedGap(nodes)`. -/
def getDetectedGap (nodes : List Element) : ℚ :=
  match nodes with
  | [] => 40
  | n :: _ => if n.width > 400 then 100 else 40

/-- A container node: geometry, locked flag, the `type === 'SECTION'`
discriminator, the `'layoutMode' in parent && layoutMode !== 'NONE'`
test, and its children. -/
structure Parent where
  x : ℚ
  y : ℚ
  width : ℚ
  height : ℚ
  locked : Bool
  isSection : Bool
  autoLayout : Bool
  children : List Element
deriving Repr, DecidableEq

/-- The scene: the containers reachable from the selection, plus the
fresh-identity counter used by cloning. -/
structure Scene where
  parents : List Parent
  nextId : ℕ
deriving Repr, DecidableEq

/-- One selected node: its parent (as an index into the scene, or none
for a parentless node) and a snapshot of the element. -/
structure SelNode where
  parentIdx : Option ℕ
  node : Element
deriving Repr, DecidableEq

/-- User-facing notifications emitted by performDuplicate. -/
inductive Notif where
  | emptySelection
  | dupAutoLayout
  | dupWithGap (g : ℚ)
deriving Repr, DecidableEq

/-- The sort comparator of performDuplicate
(`(a, b) => { if right return b.x - a.x; ... }`). -/
def dupCompare (d : Direction) (a b : Element) : ℚ :=
  if d.incRight then b.x - a.x
  else if d.incLeft then a.x - b.x
  else if d.incBottom then b.y - a.y
  else if d.incTop then a.y - b.y
  else 0

/-- The direction-stable ordering of the selection
(`[...selection].sort(...)`; JavaScript sort is stable). -/
def sortSelection (d : Direction) (sel : List SelNode) : List SelNode :=
  List.insertionSort (fun a b => dupCompare d a.node b.node ≤ 0) sel

/-- Horizontal clone placement
(`left ? node.x - shiftX : (right ? node.x + shiftX : node.x)`). -/
def clonePosX (d : Direction) (node : Element) (sx : ℚ) : ℚ :=
  if d.incLeft then node.x - sx
  else if d.incRight then node.x + sx
  else node.x

/-- Vertical clone placement. -/
def clonePosY (d : Direction) (node : Element) (sy : ℚ) : ℚ :=
  if d.incTop then node.y - sy
  else if d.incBottom then node.y + sy
  else node.y

/-- Container adaptation `expandSectionIfNeeded(node)`: the four
sequential edge checks with `SECTION_PADDING = 80`, each resizing or
shifting the parent in place.  `node` is the freshly placed clone; its
fields read by later checks are never written by earlier ones, so it is
passed by value. -/
def expandSectionIfNeeded (node : Element) (parent : Parent) : Parent :=
  if parent.isSection = false ∨ parent.locked = true then parent
  else
    let p1 :=
      if node.x + node.width > parent.width - 80 then
        { parent with width := node.x + node.width + 80 }
      else parent
    let p2 :=
      if node.y + node.height > p1.height - 80 then
        { p1 with height := node.y + node.height + 80 }
      else p1
    let p3 :=
      if node.x < 80 then
        { p2 with
          width := p2.width - (node.x - 80),
          x := p2.x + (node.x - 80),
          children := p2.children.map (fun c =>
            if c.locked then c else { c with x := c.x - (node.x - 80) }) }
      else p2
    let p4 :=
      if node.y < 80 then
        { p3 with
          height := p3.height - (node.y - 80),
          y := p3.y + (node.y - 80),
          children := p3.children.map (fun c =>
            if c.locked then c else { c with y := c.y - (node.y - 80) }) }
      else p3
    p4

/-- Loop state of performDuplicate: the scene, the `processedIds`
exclusion set, the created clone ids, the auto-layout flag and the last
effective gap. -/
structure DupState where
  scene : Scene
  processedIds : List ℕ
  created : List ℕ
  autoLayoutWarning : Bool
  lastGap : ℚ
deriving Repr, DecidableEq

/-- Replace the parent at index `i`. -/
def setParent (sc : Scene) (i : ℕ) (p : Parent) : Scene :=
  { sc with parents := sc.parents.set i p }

/-- Body of the `for (const node of sortedSelection)` loop of
performDuplicate: skip parentless nodes, resolve the effective gap,
take the auto-layout insertion path or the push/clone/expand path. -/
def processNode (d : Direction) (gap : Option ℚ) (pushEnabled : Bool)
    (st : DupState) (sel : SelNode) : DupState :=
  match sel.parentIdx with
  | none => st
  | some pi =>
    match st.scene.parents[pi]? with
    | none => st
    | some parent =>
      match parent.children.find? (fun c => decide (c.id = sel.node.id)) with
      | none => st
      | some node =>
        let effectiveGap : ℚ :=
          match gap with
          | some g => g
          | none => if node.width > 400 then 100 else 40
        if parent.autoLayout then
          let clone : Element := { node with id := st.scene.nextId }
          let index := parent.children.findIdx (fun c => decide (c.id = node.id))
          let newIndex := index + (if d.incRight || d.incBottom then 1 else 0)
          let children2 := parent.children.insertIdx newIndex clone
          { scene :=
              { setParent st.scene pi { parent with children := children2 } with
                nextId := st.scene.nextId + 1 },
            processedIds := st.processedIds,
            created := st.created ++ [clone.id],
            autoLayoutWarning := true,
            lastGap := effectiveGap }
        else
          let sx := node.width + effectiveGap
          let sy := node.height + effectiveGap
          let children1 :=
            if pushEnabled then
              pushSiblings node d sx sy st.processedIds parent.children
            else parent.children
          let base := (children1.find? (fun c => decide (c.id = node.id))).getD node
          let clone : Element :=
            { base with
                id := st.scene.nextId,
                x := clonePosX d base sx,
                y := clonePosY d base sy }
          let parent2 :=
            expandSectionIfNeeded clone
              { parent with children := children1 ++ [clone] }
          { scene :=
              { setParent st.scene pi parent2 with
                nextId := st.scene.nextId + 1 },
            processedIds := clone.id :: st.processedIds,
            created := st.created ++ [clone.id],
            autoLayoutWarning := st.autoLayoutWarning,
            lastGap := effectiveGap }

/-- The duplication orchestrator `performDuplicate(direction, gap,
pushEnabled)` acting on a scene and an explicit selection.  Returns the
final scene, the ids of created clones, and the notifications. -/
def performDuplicate (scene : Scene) (selection : List SelNode)
    (d : Direction) (gap : Option ℚ) (pushEnabled : Bool) :
    Scene × List ℕ × List Notif :=
  if selection.length = 0 then
    (scene, [], [Notif.emptySelection])
  else
    let sorted := sortSelection d selection
    let init : DupState :=
      { scene := scene,
        processedIds := selection.map (fun s => s.node.id),
        created := [],
        autoLayoutWarning := false,
        lastGap := 40 }
    let fin := sorted.foldl (processNode d gap pushEnabled) init
    let notifs :=
      if fin.created.isEmpty then ([] : List Notif)
      else [if fin.autoLayoutWarning then Notif.dupAutoLayout
            else Notif.dupWithGap fin.lastGap]
    (fin.scene, fin.created, notifs)

/-- A rectangle is closed for a processed set when no unprocessed child
strictly overlaps it. -/
def ClosedAt (children : List Element) (P : List ℕ) (r : Rect) : Prop :=
  ∀ (i : ℕ) (s : Element),
    children[i]? = some s → s.id ∉ P → overlapsB r s = false

/-- A moved child either overlapped the target rectangle or the shifted
rectangle of another moved child. -/
def OriginP (children : List Element) (target : Rect) (d : Direction)
    (sx sy : ℚ) (mv : List ℕ) (j : ℕ) : Prop :=
  ∃ s : Element, children[j]? = some s ∧
    (overlapsB target s = true ∨
      ∃ (k : ℕ) (t : Element), k ∈ mv ∧ children[k]? = some t ∧
        overlapsB (shiftedRect t d sx sy) s = true)

/-- Two elements agreeing on everything the collision engine reads:
identity and geometry (the locked flag is free). -/
def sameGeom (a b : Element) : Prop :=
  a.id = b.id ∧ a.x = b.x ∧ a.y = b.y ∧
    a.width = b.width ∧ a.height = b.height

section ScanLemmas

lemma enumFrom_getElem (l : List Element) :
    ∀ (n : ℕ) (p : ℕ × Element), p ∈ l.enumFrom n →
      ∃ k, p.1 = n + k ∧ l[k]? = some p.2 := by
  induction l with
  | nil => intro n p hp; simp [List.enumFrom] at hp
  | cons a t ih =>
    intro n p hp
    simp only [List.enumFrom, List.mem_cons] at hp
    rcases hp with hp | hp
    · exact ⟨0, by simp [hp]⟩
    · obtain ⟨k, hk, hget⟩ := ih (n + 1) p hp
      exact ⟨k + 1, by omega, by simpa using hget⟩

lemma enum_valid (l : List Element) :
    ∀ p ∈ l.enum, l[p.1]? = some p.2 := by
  intro p hp
  obtain ⟨k, hk, hget⟩ := enumFrom_getElem l 0 p hp
  simpa [hk] using hget

lemma getElem_enumFrom (l : List Element) :
    ∀ (n k : ℕ) (a : Element), l[k]? = some a → (n + k, a) ∈ l.enumFrom n := by
  induction l with
  | nil => intro n k a h; simp at h
  | cons b t ih =>
    intro n k a h
    cases k with
    | zero =>
      simp only [List.getElem?_cons_zero, Option.some.injEq] at h
      subst h
      simp [List.enumFrom]
    | succ k =>
      simp only [List.getElem?_cons_succ] at h
      have := ih (n + 1) k a h
      simp only [List.enumFrom, List.mem_cons]
      right
      convert this using 2
      omega

lemma getElem_enum (l : List Element) (k : ℕ) (a : Element)
    (h : l[k]? = some a) : (k, a) ∈ l.enum := by
  simpa using getElem_enumFrom l 0 k a h

lemma cu_cons (c : Element) (cs : List Element) (p : List ℕ) :
    countUnproc (c :: cs) p =
      (if c.id ∈ p then 0 else 1) + countUnproc cs p := by
  by_cases h : c.id ∈ p <;> simp [countUnproc, List.filter, h] <;> omega

lemma cu_mono_cons (children : List Element) (a : ℕ) (p : List ℕ) :
    countUnproc children (a :: p) ≤ countUnproc children p := by
  induction children with
  | nil => simp [countUnproc]
  | cons c cs ih =>
    rw [cu_cons, cu_cons]
    by_cases h2 : c.id ∈ p
    · have h1 : c.id ∈ (a :: p) := List.mem_cons_of_mem _ h2
      simp only [h1, h2, if_true]
      omega
    · by_cases h1 : c.id ∈ (a :: p) <;> simp only [h1, h2, if_true, if_false] <;> omega

lemma cu_cons_drop (children : List Element) (p : List ℕ) (s : Element)
    (hs : s ∈ children) (hid : s.id ∉ p) :
    countUnproc children (s.id :: p) + 1 ≤ countUnproc children p := by
  induction children with
  | nil => simp at hs
  | cons c cs ih =>
    rw [cu_cons, cu_cons]
    rcases List.mem_cons.mp hs with rfl | hs
    · have h1 : s.id ∈ (s.id :: p) := List.mem_cons_self _ _
      have := cu_mono_cons cs s.id p
      simp only [h1, hid, if_true, if_false]
      omega
    · have := ih hs
      by_cases h2 : c.id ∈ p
      · have h1 : c.id ∈ (s.id :: p) := List.mem_cons_of_mem _ h2
        simp only [h1, h2, if_true]
        omega
      · by_cases h1 : c.id ∈ (s.id :: p) <;>
          simp only [h1, h2, if_true, if_false] <;> omega

lemma cu_le_len (children : List Element) (p : List ℕ) :
    countUnproc children p ≤ children.length :=
  List.length_filter_le _ _

lemma scanList_processed_mono (r : Rect) (d : Direction) (sx sy : ℚ) :
    ∀ (L : List (ℕ × Element)) (st : ScanState) (x : ℕ),
      x ∈ st.processed → x ∈ (scanList r d sx sy L st).processed := by
  intro L
  induction L with
  | nil => intro st x hx; simpa [scanList] using hx
  | cons q rest ih =>
    intro st x hx
    obtain ⟨i, s⟩ := q
    simp only [scanList]
    split
    · exact ih st x hx
    · split
      · exact ih _ x (List.mem_cons_of_mem _ hx)
      · exact ih st x hx

lemma scanList_moved_mono (r : Rect) (d : Direction) (sx sy : ℚ) :
    ∀ (L : List (ℕ × Element)) (st : ScanState) (j : ℕ),
      j ∈ st.moved → j ∈ (scanList r d sx sy L st).moved := by
  intro L
  induction L with
  | nil => intro st j hj; simpa [scanList] using hj
  | cons q rest ih =>
    intro st j hj
    obtain ⟨i, s⟩ := q
    simp only [scanList]
    split
    · exact ih st j hj
    · split
      · exact ih _ j (List.mem_append_left _ hj)
      · exact ih st j hj

lemma scanList_newRects_mono (r : Rect) (d : Direction) (sx sy : ℚ) :
    ∀ (L : List (ℕ × Element)) (st : ScanState) (q : Rect),
      q ∈ st.newRects → q ∈ (scanList r d sx sy L st).newRects := by
  intro L
  induction L with
  | nil => intro st q hq; simpa [scanList] using hq
  | cons e rest ih =>
    intro st q hq
    obtain ⟨i, s⟩ := e
    simp only [scanList]
    split
    · exact ih st q hq
    · split
      · exact ih _ q (List.mem_append_left _ hq)
      · exact ih st q hq

lemma scanList_closed (r : Rect) (d : Direction) (sx sy : ℚ) :
    ∀ (L : List (ℕ × Element)) (st : ScanState) (i : ℕ) (s : Element),
      (i, s) ∈ L → s.id ∉ (scanList r d sx sy L st).processed →
      overlapsB r s = false := by
  intro L
  induction L with
  | nil => intro st i s h; simp at h
  | cons q rest ih =>
    intro st i s hmem hnp
    obtain ⟨j, t⟩ := q
    simp only [scanList] at hnp
    rcases List.mem_cons.mp hmem with heq | hmem2
    · obtain ⟨rfl, rfl⟩ := Prod.mk.injEq .. ▸ And.intro (congrArg Prod.fst heq) (congrArg Prod.snd heq)
      by_cases hp : s.id ∈ st.processed
      · rw [if_pos hp] at hnp
        exact absurd (scanList_processed_mono r d sx sy rest st s.id hp) hnp
      · by_cases ho : overlapsB r s = true
        · rw [if_neg hp, if_pos ho] at hnp
          exact absurd
            (scanList_processed_mono r d sx sy rest _ s.id (List.mem_cons_self _ _)) hnp
        · exact Bool.eq_false_iff.mpr ho
    · exact ih _ i s hmem2 hnp

lemma scanList_processed_src (children : List Element) (r : Rect)
    (d : Direction) (sx sy : ℚ) :
    ∀ (L : List (ℕ × Element)) (st : ScanState),
      (∀ p ∈ L, children[p.1]? = some p.2) →
      ∀ x ∈ (scanList r d sx sy L st).processed,
        x ∈ st.processed ∨
          ∃ j ∈ (scanList r d sx sy L st).moved,
            ∃ s : Element, children[j]? = some s ∧ s.id = x := by
  intro L
  induction L with
  | nil => intro st _ x hx; exact Or.inl (by simpa [scanList] using hx)
  | cons q rest ih =>
    intro st hv x hx
    obtain ⟨i, s⟩ := q
    have hvrest : ∀ p ∈ rest, children[p.1]? = some p.2 :=
      fun p hp => hv p (List.mem_cons_of_mem _ hp)
    simp only [scanList] at hx ⊢
    by_cases hp : s.id ∈ st.processed
    · rw [if_pos hp] at hx ⊢
      exact ih st hvrest x hx
    · by_cases ho : overlapsB r s = true
      · rw [if_neg hp, if_pos ho] at hx ⊢
        rcases ih _ hvrest x hx with hx2 | hx2
        · rcases List.mem_cons.mp hx2 with rfl | hx3
          · right
            refine ⟨i, ?_, s, hv (i, s) (List.mem_cons_self _ _), rfl⟩
            exact scanList_moved_mono r d sx sy rest _ i
              (List.mem_append_right _ (List.mem_singleton_self i))
          · exact Or.inl hx3
        · exact Or.inr hx2
      · rw [if_neg hp, if_neg ho] at hx ⊢
        exact ih st hvrest x hx

lemma scanList_moved_src (children : List Element) (r : Rect)
    (d : Direction) (sx sy : ℚ) :
    ∀ (L : List (ℕ × Element)) (st : ScanState),
      (∀ p ∈ L, children[p.1]? = some p.2) →
      ∀ j ∈ (scanList r d sx sy L st).moved,
        j ∈ st.moved ∨
          ∃ s : Element, children[j]? = some s ∧ s.id ∉ st.processed ∧
            overlapsB r s = true ∧
            shiftedRect s d sx sy ∈ (scanList r d sx sy L st).newRects := by
  intro L
  induction L with
  | nil => intro st _ j hj; exact Or.inl (by simpa [scanList] using hj)
  | cons q rest ih =>
    intro st hv j hj
    obtain ⟨i, s⟩ := q
    have hvrest : ∀ p ∈ rest, children[p.1]? = some p.2 :=
      fun p hp => hv p (List.mem_cons_of_mem _ hp)
    simp only [scanList] at hj ⊢
    by_cases hp : s.id ∈ st.processed
    · rw [if_pos hp] at hj ⊢
      exact ih st hvrest j hj
    · by_cases ho : overlapsB r s = true
      · rw [if_neg hp, if_pos ho] at hj ⊢
        rcases ih _ hvrest j hj with hj2 | ⟨t, ht, htp, hto, htr⟩
        · rcases List.mem_append.mp hj2 with hj3 | hj3
          · exact Or.inl hj3
          · right
            have hji : j = i := List.mem_singleton.mp hj3
            subst hji
            refine ⟨s, hv (j, s) (List.mem_cons_self _ _), hp, ho, ?_⟩
            exact scanList_newRects_mono r d sx sy rest _ _
              (List.mem_append_right _ (List.mem_singleton_self _))
        · right
          refine ⟨t, ht, fun hc => htp (List.mem_cons_of_mem _ hc), hto, htr⟩
      · rw [if_neg hp, if_neg ho] at hj ⊢
        exact ih st hvrest j hj

lemma scanList_newRects_src (children : List Element) (r : Rect)
    (d : Direction) (sx sy : ℚ) :
    ∀ (L : List (ℕ × Element)) (st : ScanState),
      (∀ p ∈ L, children[p.1]? = some p.2) →
      ∀ q ∈ (scanList r d sx sy L st).newRects,
        q ∈ st.newRects ∨
          ∃ j ∈ (scanList r d sx sy L st).moved,
            ∃ s : Element, children[j]? = some s ∧
              q = shiftedRect s d sx sy := by
  intro L
  induction L with
  | nil => intro st _ q hq; exact Or.inl (by simpa [scanList] using hq)
  | cons e rest ih =>
    intro st hv q hq
    obtain ⟨i, s⟩ := e
    have hvrest : ∀ p ∈ rest, children[p.1]? = some p.2 :=
      fun p hp => hv p (List.mem_cons_of_mem _ hp)
    simp only [scanList] at hq ⊢
    by_cases hp : s.id ∈ st.processed
    · rw [if_pos hp] at hq ⊢
      exact ih st hvrest q hq
    · by_cases ho : overlapsB r s = true
      · rw [if_neg hp, if_pos ho] at hq ⊢
        rcases ih _ hvrest q hq with hq2 | hq2
        · rcases List.mem_append.mp hq2 with hq3 | hq3
          · exact Or.inl hq3
          · right
            refine ⟨i, ?_, s, hv (i, s) (List.mem_cons_self _ _),
              (List.mem_singleton.mp hq3)⟩
            exact scanList_moved_mono r d sx sy rest _ i
              (List.mem_append_right _ (List.mem_singleton_self i))
        · exact Or.inr hq2
      · rw [if_neg hp, if_neg ho] at hq ⊢
        exact ih st hvrest q hq

lemma scanList_measure (children : List Element) (r : Rect)
    (d : Direction) (sx sy : ℚ) :
    ∀ (L : List (ℕ × Element)) (st : ScanState),
      (∀ p ∈ L, children[p.1]? = some p.2) →
      (scanList r d sx sy L st).newRects.length +
          countUnproc children (scanList r d sx sy L st).processed ≤
        st.newRects.length + countUnproc children st.processed := by
  intro L
  induction L with
  | nil => intro st _; simp [scanList]
  | cons q rest ih =>
    intro st hv
    obtain ⟨i, s⟩ := q
    have hvrest : ∀ p ∈ rest, children[p.1]? = some p.2 :=
      fun p hp => hv p (List.mem_cons_of_mem _ hp)
    simp only [scanList]
    by_cases hp : s.id ∈ st.processed
    · rw [if_pos hp]; exact ih st hvrest
    · by_cases ho : overlapsB r s = true
      · rw [if_neg hp, if_pos ho]
        have hstep := ih
          { processed := s.id :: st.processed,
            moved := st.moved ++ [i],
            newRects := st.newRects ++ [shiftedRect s d sx sy] } hvrest
        have hmem : s ∈ children :=
          List.getElem?_mem (hv (i, s) (List.mem_cons_self _ _))
        have hdrop := cu_cons_drop children st.processed s hmem hp
        simp only [List.length_append, List.length_cons, List.length_nil] at hstep ⊢
        omega
      · rw [if_neg hp, if_neg ho]; exact ih st hvrest

lemma scanList_nodup (children : List Element) (r : Rect)
    (d : Direction) (sx sy : ℚ) :
    ∀ (L : List (ℕ × Element)) (st : ScanState),
      (∀ p ∈ L, children[p.1]? = some p.2) →
      st.moved.Nodup →
      (∀ j ∈ st.moved, ∃ s : Element, children[j]? = some s ∧
        s.id ∈ st.processed) →
      (scanList r d sx sy L st).moved.Nodup ∧
        (∀ j ∈ (scanList r d sx sy L st).moved,
          ∃ s : Element, children[j]? = some s ∧
            s.id ∈ (scanList r d sx sy L st).processed) := by
  intro L
  induction L with
  | nil => intro st _ hnd hinv; exact ⟨by simpa [scanList] using hnd,
      by simpa [scanList] using hinv⟩
  | cons q rest ih =>
    intro st hv hnd hinv
    obtain ⟨i, s⟩ := q
    have hvrest : ∀ p ∈ rest, children[p.1]? = some p.2 :=
      fun p hp => hv p (List.mem_cons_of_mem _ hp)
    simp only [scanList]
    by_cases hp : s.id ∈ st.processed
    · rw [if_pos hp]; exact ih st hvrest hnd hinv
    · by_cases ho : overlapsB r s = true
      · rw [if_neg hp, if_pos ho]
        have hs : children[i]? = some s := hv (i, s) (List.mem_cons_self _ _)
        have hnotin : i ∉ st.moved := by
          intro hmem
          obtain ⟨t, ht, htp⟩ := hinv i hmem
          rw [hs] at ht
          obtain rfl := Option.some.injEq .. ▸ ht
          exact hp htp
        refine ih _ hvrest ?_ ?_
        · exact List.nodup_append.mpr
            ⟨hnd, List.nodup_singleton i, fun a ha hb =>
              (List.mem_singleton.mp hb ▸ hnotin) ha⟩
        · intro j hj
          rcases List.mem_append.mp hj with hj2 | hj2
          · obtain ⟨t, ht, htp⟩ := hinv j hj2
            exact ⟨t, ht, List.mem_cons_of_mem _ htp⟩
          · obtain rfl := List.mem_singleton.mp hj2
            exact ⟨s, hs, List.mem_cons_self _ _⟩
      · rw [if_neg hp, if_neg ho]; exact ih st hvrest hnd hinv

end ScanLemmas

section BfsLemmas

lemma bfs_processed_mono (children : List Element) (d : Direction) (sx sy : ℚ) :
    ∀ (fuel : ℕ) (q : List Rect) (p m : List ℕ) (x : ℕ),
      x ∈ p → x ∈ (bfsAux children d sx sy fuel q p m).2 := by
  intro fuel
  induction fuel with
  | zero => intro q p m x hx; simpa [bfsAux] using hx
  | succ fuel ih =>
    intro q p m x hx
    cases q with
    | nil => simpa [bfsAux] using hx
    | cons r rest =>
      simp only [bfsAux, scanRect]
      exact ih _ _ _ x
        (scanList_processed_mono r d sx sy children.enum
          { processed := p, moved := m, newRects := [] } x hx)

lemma bfs_moved_mono (children : List Element) (d : Direction) (sx sy : ℚ) :
    ∀ (fuel : ℕ) (q : List Rect) (p m : List ℕ) (j : ℕ),
      j ∈ m → j ∈ (bfsAux children d sx sy fuel q p m).1 := by
  intro fuel
  induction fuel with
  | zero => intro q p m j hj; simpa [bfsAux] using hj
  | succ fuel ih =>
    intro q p m j hj
    cases q with
    | nil => simpa [bfsAux] using hj
    | cons r rest =>
      simp only [bfsAux, scanRect]
      exact ih _ _ _ j
        (scanList_moved_mono r d sx sy children.enum
          { processed := p, moved := m, newRects := [] } j hj)

lemma bfs_processed_src (children : List Element) (d : Direction) (sx sy : ℚ) :
    ∀ (fuel : ℕ) (q : List Rect) (p m : List ℕ) (x : ℕ),
      x ∈ (bfsAux children d sx sy fuel q p m).2 →
      x ∈ p ∨ ∃ j ∈ (bfsAux children d sx sy fuel q p m).1,
        ∃ s : Element, children[j]? = some s ∧ s.id = x := by
  intro fuel
  induction fuel with
  | zero => intro q p m x hx; exact Or.inl (by simpa [bfsAux] using hx)
  | succ fuel ih =>
    intro q p m x hx
    cases q with
    | nil => exact Or.inl (by simpa [bfsAux] using hx)
    | cons r rest =>
      simp only [bfsAux, scanRect] at hx ⊢
      rcases ih _ _ _ x hx with hx2 | hx2
      · rcases scanList_processed_src children r d sx sy children.enum
          { processed := p, moved := m, newRects := [] }
          (enum_valid children) x hx2 with hx3 | ⟨j, hj, s, hs, hid⟩
        · exact Or.inl hx3
        · exact Or.inr ⟨j, bfs_moved_mono children d sx sy _ _ _ _ j hj, s, hs, hid⟩
      · exact Or.inr hx2

lemma bfs_moved_src (children : List Element) (d : Direction) (sx sy : ℚ) :
    ∀ (fuel : ℕ) (q : List Rect) (p m : List ℕ) (j : ℕ),
      j ∈ (bfsAux children d sx sy fuel q p m).1 →
      j ∈ m ∨ ∃ s : Element, children[j]? = some s ∧ s.id ∉ p := by
  intro fuel
  induction fuel with
  | zero => intro q p m j hj; exact Or.inl (by simpa [bfsAux] using hj)
  | succ fuel ih =>
    intro q p m j hj
    cases q with
    | nil => exact Or.inl (by simpa [bfsAux] using hj)
    | cons r rest =>
      simp only [bfsAux, scanRect] at hj
      rcases ih _ _ _ j hj with hj2 | ⟨s, hs, hsp⟩
      · rcases scanList_moved_src children r d sx sy children.enum
          { processed := p, moved := m, newRects := [] }
          (enum_valid children) j hj2 with hj3 | ⟨s, hs, hsp, _, _⟩
        · exact Or.inl hj3
        · exact Or.inr ⟨s, hs, hsp⟩
      · refine Or.inr ⟨s, hs, fun hc => hsp ?_⟩
        exact scanList_processed_mono r d sx sy children.enum
          { processed := p, moved := m, newRects := [] } s.id hc

lemma bfs_nodup (children : List Element) (d : Direction) (sx sy : ℚ) :
    ∀ (fuel : ℕ) (q : List Rect) (p m : List ℕ),
      m.Nodup →
      (∀ j ∈ m, ∃ s : Element, children[j]? = some s ∧ s.id ∈ p) →
      (bfsAux children d sx sy fuel q p m).1.Nodup := by
  intro fuel
  induction fuel with
  | zero => intro q p m hnd _; simpa [bfsAux] using hnd
  | succ fuel ih =>
    intro q p m hnd hinv
    cases q with
    | nil => simpa [bfsAux] using hnd
    | cons r rest =>
      simp only [bfsAux, scanRect]
      obtain ⟨hnd2, hinv2⟩ := scanList_nodup children r d sx sy children.enum
        { processed := p, moved := m, newRects := [] }
        (enum_valid children) hnd hinv
      exact ih _ _ _ hnd2 hinv2

lemma bfs_fuel_indep (children : List Element) (d : Direction) (sx sy : ℚ) :
    ∀ (f1 f2 : ℕ) (q : List Rect) (p m : List ℕ),
      q.length + countUnproc children p ≤ f1 →
      q.length + countUnproc children p ≤ f2 →
      bfsAux children d sx sy f1 q p m = bfsAux children d sx sy f2 q p m := by
  intro f1
  induction f1 with
  | zero =>
    intro f2 q p m h1 _
    have hq : q = [] := List.length_eq_zero.mp (by omega)
    subst hq
    cases f2 <;> simp [bfsAux]
  | succ f1 ih =>
    intro f2 q p m h1 h2
    cases q with
    | nil => cases f2 <;> simp [bfsAux]
    | cons r rest =>
      have hf2 : ∃ k, f2 = k + 1 := by
        cases f2
        · exfalso; simp at h2
        · exact ⟨_, rfl⟩
      obtain ⟨k, rfl⟩ := hf2
      simp only [bfsAux, scanRect]
      have hmeas := scanList_measure children r d sx sy children.enum
        { processed := p, moved := m, newRects := [] } (enum_valid children)
      simp only [List.length_nil, Nat.zero_add] at hmeas
      simp only [List.length_cons] at h1 h2
      apply ih k
      · simp only [List.length_append]; omega
      · simp only [List.length_append]; omega

lemma bfs_closure (children : List Element) (d : Direction) (sx sy : ℚ) :
    ∀ (fuel : ℕ) (q : List Rect) (p m : List ℕ),
      q.length + countUnproc children p ≤ fuel →
      (∀ r ∈ q, ClosedAt children (bfsAux children d sx sy fuel q p m).2 r) ∧
      (∀ j ∈ (bfsAux children d sx sy fuel q p m).1,
        j ∈ m ∨ ∃ s : Element, children[j]? = some s ∧
          ClosedAt children (bfsAux children d sx sy fuel q p m).2
            (shiftedRect s d sx sy)) := by
  intro fuel
  induction fuel with
  | zero =>
    intro q p m h
    have hq : q = [] := List.length_eq_zero.mp (by omega)
    subst hq
    exact ⟨fun r hr => absurd hr (List.not_mem_nil r),
      fun j hj => Or.inl (by simpa [bfsAux] using hj)⟩
  | succ fuel ih =>
    intro q p m h
    cases q with
    | nil =>
      exact ⟨fun r hr => absurd hr (List.not_mem_nil r),
        fun j hj => Or.inl (by simpa [bfsAux] using hj)⟩
    | cons r rest =>
      have hmeas := scanList_measure children r d sx sy children.enum
        { processed := p, moved := m, newRects := [] } (enum_valid children)
      simp only [List.length_nil, Nat.zero_add] at hmeas
      simp only [List.length_cons] at h
      simp only [bfsAux, scanRect]
      obtain ⟨ihA, ihB⟩ := ih
        (rest ++ (scanList r d sx sy children.enum
          { processed := p, moved := m, newRects := [] }).newRects)
        (scanList r d sx sy children.enum
          { processed := p, moved := m, newRects := [] }).processed
        (scanList r d sx sy children.enum
          { processed := p, moved := m, newRects := [] }).moved
        (by simp only [List.length_append]; omega)
      constructor
      · intro r2 hr2
        rcases List.mem_cons.mp hr2 with rfl | hr3
        · intro i s hi hid
          have hidst : s.id ∉ (scanList r2 d sx sy children.enum
              { processed := p, moved := m, newRects := [] }).processed :=
            fun hc => hid (bfs_processed_mono children d sx sy _ _ _ _ s.id hc)
          exact scanList_closed r2 d sx sy children.enum
            { processed := p, moved := m, newRects := [] } i s
            (getElem_enum children i s hi) hidst
        · exact ihA r2 (List.mem_append_left _ hr3)
      · intro j hj
        rcases ihB j hj with hj2 | hj2
        · rcases scanList_moved_src children r d sx sy children.enum
            { processed := p, moved := m, newRects := [] }
            (enum_valid children) j hj2 with hj3 | ⟨s, hs, _, _, hsr⟩
          · exact Or.inl hj3
          · exact Or.inr ⟨s, hs, ihA _ (List.mem_append_right _ hsr)⟩
        · exact Or.inr hj2

lemma bfs_origin (children : List Element) (d : Direction) (sx sy : ℚ)
    (target : Rect) :
    ∀ (fuel : ℕ) (q : List Rect) (p m : List ℕ),
      (∀ r ∈ q, r = target ∨ ∃ (k : ℕ) (t : Element),
        k ∈ (bfsAux children d sx sy fuel q p m).1 ∧ children[k]? = some t ∧
        r = shiftedRect t d sx sy) →
      (∀ j ∈ m, OriginP children target d sx sy
        (bfsAux children d sx sy fuel q p m).1 j) →
      ∀ j ∈ (bfsAux children d sx sy fuel q p m).1,
        OriginP children target d sx sy
          (bfsAux children d sx sy fuel q p m).1 j := by
  intro fuel
  induction fuel with
  | zero =>
    intro q p m _ hm j hj
    exact hm j (by simpa [bfsAux] using hj)
  | succ fuel ih =>
    intro q p m hq hm j hj
    cases q with
    | nil => exact hm j (by simpa [bfsAux] using hj)
    | cons r rest =>
      simp only [bfsAux, scanRect] at hq hm hj ⊢
      refine ih _ _ _ ?_ ?_ j hj
      · intro r2 hr2
        rcases List.mem_append.mp hr2 with hr3 | hr3
        · exact hq r2 (List.mem_cons_of_mem _ hr3)
        · rcases scanList_newRects_src children r d sx sy children.enum
            { processed := p, moved := m, newRects := [] }
            (enum_valid children) r2 hr3 with hr4 | ⟨j2, hj2, s, hs, hrect⟩
          · exact absurd hr4 (List.not_mem_nil r2)
          · exact Or.inr ⟨j2, s,
              bfs_moved_mono children d sx sy _ _ _ _ j2 hj2, hs, hrect⟩
      · intro j2 hj2
        rcases scanList_moved_src children r d sx sy children.enum
          { processed := p, moved := m, newRects := [] }
          (enum_valid children) j2 hj2 with hj3 | ⟨s, hs, _, hso, _⟩
        · exact hm j2 hj3
        · rcases hq r (List.mem_cons_self _ _) with rfl | ⟨k, t, hk, ht, hrect⟩
          · exact ⟨s, hs, Or.inl hso⟩
          · exact ⟨s, hs, Or.inr ⟨k, t, hk, ht, hrect ▸ hso⟩⟩

end BfsLemmas

section PushLemmas

lemma applyMoves_getElem (d : Direction) (sx sy : ℚ) (moved : List ℕ) :
    ∀ (l : List Element) (n i : ℕ),
      (applyMoves d sx sy moved n l)[i]? =
        (l[i]?).map (fun c => if (n + i) ∈ moved then moveEl d sx sy c else c) := by
  intro l
  induction l with
  | nil => intro n i; simp [applyMoves]
  | cons c rest ih =>
    intro n i
    cases i with
    | zero => simp [applyMoves]
    | succ i =>
      simp only [applyMoves, List.getElem?_cons_succ]
      rw [ih (n + 1) i]
      have hn : n + 1 + i = n + (i + 1) := by omega
      rw [hn]

lemma pushSiblings_getElem (o : Element) (d : Direction) (sx sy : ℚ)
    (excluded : List ℕ) (children : List Element) (i : ℕ) :
    (pushSiblings o d sx sy excluded children)[i]? =
      (children[i]?).map (fun c =>
        if i ∈ movedIdxs o d sx sy excluded children
        then moveEl d sx sy c else c) := by
  simpa using applyMoves_getElem d sx sy
    (movedIdxs o d sx sy excluded children) children 0 i

lemma nodup_id_index (children : List Element)
    (hNd : (children.map Element.id).Nodup) {i j : ℕ} {a b : Element}
    (ha : children[i]? = some a) (hb : children[j]? = some b)
    (hid : a.id = b.id) : i = j := by
  have hai : (children.map Element.id)[i]? = some a.id := by
    simp [List.getElem?_map, ha]
  have hbj : (children.map Element.id)[j]? = some b.id := by
    simp [List.getElem?_map, hb]
  rw [← hid] at hbj
  have hi : i < (children.map Element.id).length := by
    by_contra hc
    rw [List.getElem?_eq_none (by omega)] at hai
    exact Option.noConfusion hai
  exact List.getElem?_inj hi hNd (hai.trans hbj.symm)

lemma dispX_dirRight (sx : ℚ) : dispX ⟨some HDir.right, none⟩ sx = sx := rfl

lemma dispY_dirRight (sy : ℚ) : dispY ⟨some HDir.right, none⟩ sy = 0 := rfl

lemma dispX_dirLeft (sx : ℚ) : dispX ⟨some HDir.left, none⟩ sx = -sx := rfl

lemma dispY_dirLeft (sy : ℚ) : dispY ⟨some HDir.left, none⟩ sy = 0 := rfl

lemma dispX_dirBottom (sx : ℚ) : dispX ⟨none, some VDir.bottom⟩ sx = 0 := rfl

lemma dispY_dirBottom (sy : ℚ) : dispY ⟨none, some VDir.bottom⟩ sy = sy := rfl

lemma dispX_dirNone (sx : ℚ) : dispX ⟨none, none⟩ sx = 0 := rfl

lemma dispY_dirNone (sy : ℚ) : dispY ⟨none, none⟩ sy = 0 := rfl

lemma mem_moved_of_target_overlap (o : Element) (d : Direction) (sx sy : ℚ)
    (excluded : List ℕ) (children : List Element) (i : ℕ) (s : Element)
    (hNd : (children.map Element.id).Nodup)
    (hs : children[i]? = some s) (hex : s.id ∉ excluded)
    (hov : overlapsB (targetRect o d sx sy) s = true) :
    i ∈ movedIdxs o d sx sy excluded children := by
  have hfuel : ([targetRect o d sx sy].length : ℕ) +
      countUnproc children excluded ≤ children.length + 1 := by
    have := cu_le_len children excluded
    simp only [List.length_cons, List.length_nil]
    omega
  obtain ⟨hA, _⟩ := bfs_closure children d sx sy (children.length + 1)
    [targetRect o d sx sy] excluded [] hfuel
  by_cases hin : s.id ∈ (bfsAux children d sx sy (children.length + 1)
      [targetRect o d sx sy] excluded []).2
  · rcases bfs_processed_src children d sx sy _ _ _ _ s.id hin with
      h | ⟨j, hj, t, ht, hid⟩
    · exact absurd h hex
    · have hij : j = i := nodup_id_index children hNd ht hs hid
      subst hij
      exact hj
  · exfalso
    have hcl := hA (targetRect o d sx sy) (List.mem_singleton_self _) i s hs hin
    rw [hcl] at hov
    exact Bool.noConfusion hov

lemma mem_moved_of_chain_overlap (o : Element) (d : Direction) (sx sy : ℚ)
    (excluded : List ℕ) (children : List Element) (bi ci : ℕ) (B C : Element)
    (hNd : (children.map Element.id).Nodup)
    (hb : children[bi]? = some B)
    (hbm : bi ∈ movedIdxs o d sx sy excluded children)
    (hc : children[ci]? = some C) (hex : C.id ∉ excluded)
    (hov : overlapsB (shiftedRect B d sx sy) C = true) :
    ci ∈ movedIdxs o d sx sy excluded children := by
  have hfuel : ([targetRect o d sx sy].length : ℕ) +
      countUnproc children excluded ≤ children.length + 1 := by
    have := cu_le_len children excluded
    simp only [List.length_cons, List.length_nil]
    omega
  obtain ⟨_, hB⟩ := bfs_closure children d sx sy (children.length + 1)
    [targetRect o d sx sy] excluded [] hfuel
  rcases hB bi hbm with hfalse | ⟨t, ht, hcl⟩
  · exact absurd hfalse (List.not_mem_nil bi)
  · have htB : t = B := by
      rw [hb] at ht
      exact (Option.some.injEq t B ▸ ht.symm :)
    subst htB
    by_cases hin : C.id ∈ (bfsAux children d sx sy (children.length + 1)
        [targetRect o d sx sy] excluded []).2
    · rcases bfs_processed_src children d sx sy _ _ _ _ C.id hin with
        h | ⟨j, hj, u, hu, hid⟩
      · exact absurd h hex
      · have hij : j = ci := nodup_id_index children hNd hu hc hid
        subst hij
        exact hj
    · exfalso
      have hcl2 := hcl ci C hc hin
      rw [hcl2] at hov
      exact Bool.noConfusion hov

end PushLemmas

/-- C1: when the target rectangle of the duplicate overlaps sibling B
(not excluded), and B's rectangle shifted by the same directional
(shiftX, shiftY) rule overlaps sibling C (not excluded, distinct
from B), then C is displaced by exactly the directional shift, the very
same displacement B receives: collision propagation is transitively
closed over chains of overlapping siblings. -/
theorem pushSiblings_transitive
    (o B C : Element) (d : Direction) (sx sy : ℚ) (excluded : List ℕ)
    (children : List Element) (bi ci : ℕ)
    (hNd : (children.map Element.id).Nodup)
    (hB : children[bi]? = some B) (hC : children[ci]? = some C)
    (hBex : B.id ∉ excluded) (hCex : C.id ∉ excluded) (hne : C.id ≠ B.id)
    (hOB : overlapsB (targetRect o d sx sy) B = true)
    (hOC : overlapsB (shiftedRect B d sx sy) C = true) :
    (pushSiblings o d sx sy excluded children)[ci]? =
        some (moveEl d sx sy C) ∧
    (pushSiblings o d sx sy excluded children)[bi]? =
        some (moveEl d sx sy B) := by
  have hbm := mem_moved_of_target_overlap o d sx sy excluded children bi B
    hNd hB hBex hOB
  have hcm := mem_moved_of_chain_overlap o d sx sy excluded children bi ci
    B C hNd hB hbm hC hCex hOC
  constructor
  · rw [pushSiblings_getElem, hC]
    simp [hcm]
  · rw [pushSiblings_getElem, hB]
    simp [hbm]

/-- Witness for C1: a concrete two-link chain pushed rightward; both B
and C end up displaced by the full shift. -/
theorem pushSiblings_transitive_witness :
    overlapsB (targetRect ⟨0, 0, 0, 100, 100, false⟩
        ⟨some HDir.right, none⟩ 140 140) ⟨1, 150, 0, 100, 100, false⟩ = true ∧
    overlapsB (shiftedRect ⟨1, 150, 0, 100, 100, false⟩
        ⟨some HDir.right, none⟩ 140 140) ⟨2, 290, 0, 100, 100, false⟩ = true ∧
    (pushSiblings ⟨0, 0, 0, 100, 100, false⟩ ⟨some HDir.right, none⟩ 140 140 []
        [⟨1, 150, 0, 100, 100, false⟩, ⟨2, 290, 0, 100, 100, false⟩])[1]? =
      some (moveEl ⟨some HDir.right, none⟩ 140 140
        ⟨2, 290, 0, 100, 100, false⟩) ∧
    (pushSiblings ⟨0, 0, 0, 100, 100, false⟩ ⟨some HDir.right, none⟩ 140 140 []
        [⟨1, 150, 0, 100, 100, false⟩, ⟨2, 290, 0, 100, 100, false⟩])[0]? =
      some (moveEl ⟨some HDir.right, none⟩ 140 140
        ⟨1, 150, 0, 100, 100, false⟩) := by
  have hOB : overlapsB (targetRect ⟨0, 0, 0, 100, 100, false⟩
      ⟨some HDir.right, none⟩ 140 140) ⟨1, 150, 0, 100, 100, false⟩ = true := by
    norm_num [overlapsB, targetRect, margin, dispX_dirRight, dispY_dirRight]
  have hOC : overlapsB (shiftedRect ⟨1, 150, 0, 100, 100, false⟩
      ⟨some HDir.right, none⟩ 140 140) ⟨2, 290, 0, 100, 100, false⟩ = true := by
    norm_num [overlapsB, shiftedRect, margin, dispX_dirRight, dispY_dirRight]
  have h := pushSiblings_transitive ⟨0, 0, 0, 100, 100, false⟩
    ⟨1, 150, 0, 100, 100, false⟩ ⟨2, 290, 0, 100, 100, false⟩
    ⟨some HDir.right, none⟩ 140 140 []
    [⟨1, 150, 0, 100, 100, false⟩, ⟨2, 290, 0, 100, 100, false⟩] 0 1
    (by decide) (by decide) (by decide) (by decide) (by decide) (by decide)
    hOB hOC
  exact ⟨hOB, hOC, h.1, h.2⟩

/-- C3: collision propagation never moves an element whose id is in the
excluded set: such a sibling is returned unchanged. -/
theorem pushSiblings_excluded_unchanged
    (o : Element) (d : Direction) (sx sy : ℚ) (excluded : List ℕ)
    (children : List Element) (i : ℕ) (s : Element)
    (hs : children[i]? = some s) (hex : s.id ∈ excluded) :
    (pushSiblings o d sx sy excluded children)[i]? = some s := by
  have hnm : i ∉ movedIdxs o d sx sy excluded children := by
    intro hm
    simp only [movedIdxs] at hm
    rcases bfs_moved_src children d sx sy _ _ _ _ i hm with h | ⟨t, ht, htp⟩
    · exact absurd h (List.not_mem_nil i)
    · rw [hs] at ht
      obtain rfl : s = t := Option.some.inj ht
      exact htp hex
  rw [pushSiblings_getElem, hs]
  simp [hnm]

/-- Witness for C3: a concrete excluded sibling sitting right in the
target rectangle is not moved. -/
theorem pushSiblings_excluded_unchanged_witness :
    (pushSiblings ⟨0, 0, 0, 100, 100, false⟩ ⟨some HDir.right, none⟩ 140 140
        [5] [⟨5, 150, 0, 100, 100, false⟩])[0]? =
      some ⟨5, 150, 0, 100, 100, false⟩ :=
  pushSiblings_excluded_unchanged ⟨0, 0, 0, 100, 100, false⟩
    ⟨some HDir.right, none⟩ 140 140 [5] [⟨5, 150, 0, 100, 100, false⟩] 0
    ⟨5, 150, 0, 100, 100, false⟩ (by decide) (by decide)

/-- C8: the worklist traversal terminates on every input: a fuel of
`children.length + 1` iterations is always enough (any larger bound
computes the same result), each sibling is collected at most once
(`Nodup`), and afterwards the shift is applied exactly once to every
collected sibling and to nothing else. -/
theorem pushSiblings_terminates
    (o : Element) (d : Direction) (sx sy : ℚ) (excluded : List ℕ)
    (children : List Element) :
    (movedIdxs o d sx sy excluded children).Nodup ∧
    (∀ fuel : ℕ, children.length + 1 ≤ fuel →
      bfsAux children d sx sy fuel [targetRect o d sx sy] excluded [] =
        bfsAux children d sx sy (children.length + 1)
          [targetRect o d sx sy] excluded []) ∧
    (∀ (i : ℕ) (s : Element), children[i]? = some s →
      (pushSiblings o d sx sy excluded children)[i]? =
        some (if i ∈ movedIdxs o d sx sy excluded children
          then moveEl d sx sy s else s)) := by
  refine ⟨?_, ?_, ?_⟩
  · simp only [movedIdxs]
    exact bfs_nodup children d sx sy _ _ _ _ List.nodup_nil
      (fun j hj => absurd hj (List.not_mem_nil j))
  · intro fuel hf
    have hcu := cu_le_len children excluded
    apply bfs_fuel_indep children d sx sy
    · simp only [List.length_cons, List.length_nil]
      omega
    · simp only [List.length_cons, List.length_nil]
      omega
  · intro i s hs
    rw [pushSiblings_getElem, hs]
    simp

/-- Witness for C8 on a concrete one-sibling scene: larger fuel agrees
with the canonical fuel, the moved list is duplicate-free, and the
sibling is shifted exactly once. -/
theorem pushSiblings_terminates_witness :
    (movedIdxs ⟨0, 0, 0, 100, 100, false⟩ ⟨some HDir.right, none⟩ 140 140 []
      [⟨1, 150, 0, 100, 100, false⟩]).Nodup ∧
    bfsAux [⟨1, 150, 0, 100, 100, false⟩] ⟨some HDir.right, none⟩ 140 140 7
        [targetRect ⟨0, 0, 0, 100, 100, false⟩
          ⟨some HDir.right, none⟩ 140 140] [] [] =
      bfsAux [⟨1, 150, 0, 100, 100, false⟩] ⟨some HDir.right, none⟩ 140 140 2
        [targetRect ⟨0, 0, 0, 100, 100, false⟩
          ⟨some HDir.right, none⟩ 140 140] [] [] ∧
    (pushSiblings ⟨0, 0, 0, 100, 100, false⟩ ⟨some HDir.right, none⟩ 140 140 []
        [⟨1, 150, 0, 100, 100, false⟩])[0]? =
      some (if 0 ∈ movedIdxs ⟨0, 0, 0, 100, 100, false⟩
          ⟨some HDir.right, none⟩ 140 140 [] [⟨1, 150, 0, 100, 100, false⟩]
        then moveEl ⟨some HDir.right, none⟩ 140 140 ⟨1, 150, 0, 100, 100, false⟩
        else ⟨1, 150, 0, 100, 100, false⟩) := by
  have h := pushSiblings_terminates ⟨0, 0, 0, 100, 100, false⟩
    ⟨some HDir.right, none⟩ 140 140 [] [⟨1, 150, 0, 100, 100, false⟩]
  exact ⟨h.1, h.2.1 7 (by decide), h.2.2 0 ⟨1, 150, 0, 100, 100, false⟩
    (by decide)⟩

/-- C6: getDetectedGap returns 40 for an empty selection; otherwise it
inspects only the first element's width and returns 100 exactly when
that width is strictly greater than 400, else 40. -/
theorem getDetectedGap_spec :
    getDetectedGap [] = 40 ∧
    ∀ (e : Element) (es : List Element),
      getDetectedGap (e :: es) = if e.width > 400 then 100 else 40 :=
  ⟨rfl, fun _ _ => rfl⟩

/-- C9: on an empty selection, performDuplicate creates no elements,
leaves the whole scene (every element's geometry and every container's
size) untouched, and reports only the empty-selection warning. -/
theorem performDuplicate_empty (scene : Scene) (d : Direction)
    (gap : Option ℚ) (push : Bool) :
    performDuplicate scene [] d gap push =
      (scene, [], [Notif.emptySelection]) := rfl

/-- C2 counterexample: sibling S at x = 240 exactly touches the target
rectangle (spanning x from 140 to 240) and does not strictly overlap it
after the margin shrink, yet the call still displaces S — transitively,
through pushed sibling B — moving S.x from 240 to 380. -/
theorem pushSiblings_touching_counterexample :
    overlapsB (targetRect ⟨0, 0, 0, 100, 100, false⟩
      ⟨some HDir.right, none⟩ 140 140) ⟨3, 240, 0, 100, 100, false⟩ = false ∧
    (pushSiblings ⟨0, 0, 0, 100, 100, false⟩ ⟨some HDir.right, none⟩ 140 140 []
      [⟨2, 150, 0, 100, 100, false⟩, ⟨3, 240, 0, 100, 100, false⟩]).map
        Element.x = [290, 380] ∧
    (240 : ℚ) ≠ 380 := by
  refine ⟨?_, ?_, by norm_num⟩
  · norm_num [overlapsB, targetRect, margin, dispX_dirRight, dispY_dirRight]
  · norm_num [pushSiblings, movedIdxs, bfsAux, scanRect, scanList, overlapsB,
      targetRect, shiftedRect, margin, dispX_dirRight, dispY_dirRight,
      applyMoves, moveEl, List.enum, List.enumFrom]

/-- C2 (amended): a sibling that does not strictly overlap the
margin-shrunk target rectangle — in particular one merely touching its
boundary — is not displaced, provided it also does not strictly overlap
the shifted rectangle of any displaced sibling; adjacency to the target
alone never causes a push. -/
theorem pushSiblings_untouched_of_no_overlap
    (o : Element) (d : Direction) (sx sy : ℚ) (excluded : List ℕ)
    (children : List Element) (i : ℕ) (s : Element)
    (hs : children[i]? = some s)
    (h1 : overlapsB (targetRect o d sx sy) s = false)
    (h2 : ∀ (j : ℕ) (t : Element),
      j ∈ movedIdxs o d sx sy excluded children → children[j]? = some t →
      overlapsB (shiftedRect t d sx sy) s = false) :
    (pushSiblings o d sx sy excluded children)[i]? = some s := by
  have hnm : i ∉ movedIdxs o d sx sy excluded children := by
    intro hm
    have hm2 := hm
    simp only [movedIdxs] at hm2
    obtain ⟨t0, ht0, hcase⟩ := bfs_origin children d sx sy
      (targetRect o d sx sy) (children.length + 1) [targetRect o d sx sy]
      excluded []
      (fun r hr => Or.inl (List.mem_singleton.mp hr))
      (fun j hj => absurd hj (List.not_mem_nil j)) i hm2
    rw [hs] at ht0
    obtain rfl : s = t0 := Option.some.inj ht0
    rcases hcase with hc | ⟨k, t, hk, ht, hov⟩
    · rw [hc] at h1
      exact Bool.noConfusion h1
    · have hf := h2 k t (by simpa [movedIdxs] using hk) ht
      rw [hf] at hov
      exact Bool.noConfusion hov
  rw [pushSiblings_getElem, hs]
  simp [hnm]

/-- Witness for C2 (amended): a far-away sibling, overlapping nothing,
is returned unchanged. -/
theorem pushSiblings_untouched_witness :
    overlapsB (targetRect ⟨0, 0, 0, 100, 100, false⟩
      ⟨some HDir.right, none⟩ 140 140) ⟨7, 1000, 0, 100, 100, false⟩ = false ∧
    (pushSiblings ⟨0, 0, 0, 100, 100, false⟩ ⟨some HDir.right, none⟩ 140 140 []
      [⟨7, 1000, 0, 100, 100, false⟩])[0]? =
        some ⟨7, 1000, 0, 100, 100, false⟩ := by
  have h1 : overlapsB (targetRect ⟨0, 0, 0, 100, 100, false⟩
      ⟨some HDir.right, none⟩ 140 140) ⟨7, 1000, 0, 100, 100, false⟩ = false := by
    norm_num [overlapsB, targetRect, margin, dispX_dirRight, dispY_dirRight]
  have hmv : movedIdxs ⟨0, 0, 0, 100, 100, false⟩ ⟨some HDir.right, none⟩
      140 140 [] [⟨7, 1000, 0, 100, 100, false⟩] = [] := by
    norm_num [movedIdxs, bfsAux, scanRect, scanList, overlapsB, targetRect,
      shiftedRect, margin, dispX_dirRight, dispY_dirRight, List.enum,
      List.enumFrom]
  refine ⟨h1, pushSiblings_untouched_of_no_overlap
    ⟨0, 0, 0, 100, 100, false⟩ ⟨some HDir.right, none⟩ 140 140 []
    [⟨7, 1000, 0, 100, 100, false⟩] 0 ⟨7, 1000, 0, 100, 100, false⟩
    (by decide) h1 ?_⟩
  intro j t hj _
  rw [hmv] at hj
  exact absurd hj (List.not_mem_nil j)

/-- C5 counterexample: a clone with x = -10 and width 200 inside an
unlocked section of width 100 fires both the right-edge rule and the
left-edge rule; the final width is 360, not the 190 the claim's
grow-by-90 description predicts. -/
theorem expandSection_counterexample :
    (expandSectionIfNeeded ⟨9, -10, 100, 200, 50, false⟩
      ⟨0, 0, 100, 500, false, true, false, []⟩).width = 360 ∧
    (100 : ℚ) + 90 = 190 ∧ (360 : ℚ) ≠ 190 := by
  refine ⟨?_, by norm_num, by norm_num⟩
  norm_num [expandSectionIfNeeded]

/-- C5 (amended): for an element with left edge x less than the padding
80 placed in an unlocked section, container adaptation computes
shift = x - 80 and, unconditionally, moves the container's own x by
shift, adds -shift to the x of every unlocked child and leaves every
locked child's x unchanged; the final width is the width after the
right-edge check minus shift — i.e. it grows by exactly -shift when the
right-edge check does not fire, and otherwise the width had first been
grown to x + width + 80 by that check. -/
theorem expandSection_left_edge
    (node : Element) (parent : Parent)
    (hSec : parent.isSection = true) (hLock : parent.locked = false)
    (hx : node.x < 80) :
    (expandSectionIfNeeded node parent).width =
        (if node.x + node.width > parent.width - 80
          then node.x + node.width + 80 else parent.width) - (node.x - 80) ∧
    (expandSectionIfNeeded node parent).x = parent.x + (node.x - 80) ∧
    (∀ (i : ℕ) (c : Element), parent.children[i]? = some c →
      ((expandSectionIfNeeded node parent).children[i]?).map Element.x =
        some (if c.locked then c.x else c.x - (node.x - 80))) := by
  have hguard : ¬ (parent.isSection = false ∨ parent.locked = true) := by
    simp [hSec, hLock]
  refine ⟨?_, ?_, ?_⟩
  · simp only [expandSectionIfNeeded, if_neg hguard, if_pos hx]
    by_cases h1 : node.x + node.width > parent.width - 80 <;>
      by_cases h2 : node.y + node.height > parent.height - 80 <;>
        by_cases h4 : node.y < 80 <;> simp [h1, h2, h4]
  · simp only [expandSectionIfNeeded, if_neg hguard, if_pos hx]
    by_cases h1 : node.x + node.width > parent.width - 80 <;>
      by_cases h2 : node.y + node.height > parent.height - 80 <;>
        by_cases h4 : node.y < 80 <;> simp [h1, h2, h4]
  · intro i c hc
    simp only [expandSectionIfNeeded, if_neg hguard, if_pos hx]
    by_cases h1 : node.x + node.width > parent.width - 80 <;>
      by_cases h2 : node.y + node.height > parent.height - 80 <;>
        by_cases h4 : node.y < 80 <;>
          by_cases hcl : c.locked <;>
            simp [h1, h2, h4, hcl, List.getElem?_map, hc]

/-- Witness for C5 (amended): in a section of width 1000 with one
unlocked and one locked child, a clone at x = -10 (right-edge check
silent) grows the width by 90 to 1090, moves the section x to -90,
shifts the unlocked child to 290 and leaves the locked child at 300;
in the counterexample scene (width 100, clone width 200, right-edge
check firing) the width ends at 270 - (-90) = 360. -/
theorem expandSection_left_edge_witness :
    (expandSectionIfNeeded ⟨9, -10, 100, 100, 50, false⟩
      ⟨0, 0, 1000, 500, false, true, false,
        [⟨1, 200, 0, 50, 50, false⟩, ⟨2, 300, 0, 50, 50, true⟩]⟩).width =
      (1090 : ℚ) ∧
    (expandSectionIfNeeded ⟨9, -10, 100, 100, 50, false⟩
      ⟨0, 0, 1000, 500, false, true, false,
        [⟨1, 200, 0, 50, 50, false⟩, ⟨2, 300, 0, 50, 50, true⟩]⟩).x =
      (-90 : ℚ) ∧
    ((expandSectionIfNeeded ⟨9, -10, 100, 100, 50, false⟩
        ⟨0, 0, 1000, 500, false, true, false,
          [⟨1, 200, 0, 50, 50, false⟩, ⟨2, 300, 0, 50, 50, true⟩]⟩).children[0]?).map
        Element.x = some (290 : ℚ) ∧
    ((expandSectionIfNeeded ⟨9, -10, 100, 100, 50, false⟩
        ⟨0, 0, 1000, 500, false, true, false,
          [⟨1, 200, 0, 50, 50, false⟩, ⟨2, 300, 0, 50, 50, true⟩]⟩).children[1]?).map
        Element.x = some (300 : ℚ) ∧
    (expandSectionIfNeeded ⟨9, -10, 100, 200, 50, false⟩
      ⟨0, 0, 100, 500, false, true, false, []⟩).width = (360 : ℚ) := by
  have h := expandSection_left_edge ⟨9, -10, 100, 100, 50, false⟩
    ⟨0, 0, 1000, 500, false, true, false,
      [⟨1, 200, 0, 50, 50, false⟩, ⟨2, 300, 0, 50, 50, true⟩]⟩
    rfl rfl (by norm_num)
  have hb := expandSection_left_edge ⟨9, -10, 100, 200, 50, false⟩
    ⟨0, 0, 100, 500, false, true, false, []⟩ rfl rfl (by norm_num)
  obtain ⟨hw, hxx, hch⟩ := h
  have hc2 := hch 0 ⟨1, 200, 0, 50, 50, false⟩ (by decide)
  have hc3 := hch 1 ⟨2, 300, 0, 50, 50, true⟩ (by decide)
  refine ⟨by rw [hw]; norm_num, by rw [hxx]; norm_num, by rw [hc2]; norm_num,
    by rw [hc3]; norm_num, by rw [hb.1]; norm_num⟩

section SortLemmas

lemma dupCompare_right (d : Direction) (h : d.horiz = some HDir.right)
    (a b : Element) : dupCompare d a b = b.x - a.x := by
  simp [dupCompare, Direction.incRight, h]

lemma dupCompare_left (d : Direction) (h : d.horiz = some HDir.left)
    (a b : Element) : dupCompare d a b = a.x - b.x := by
  simp [dupCompare, Direction.incRight, Direction.incLeft, h]

lemma dupCompare_bottom (d : Direction) (h1 : d.horiz = none)
    (h2 : d.vert = some VDir.bottom) (a b : Element) :
    dupCompare d a b = b.y - a.y := by
  simp [dupCompare, Direction.incRight, Direction.incLeft,
    Direction.incBottom, h1, h2]

lemma dupCompare_top (d : Direction) (h1 : d.horiz = none)
    (h2 : d.vert = some VDir.top) (a b : Element) :
    dupCompare d a b = a.y - b.y := by
  simp [dupCompare, Direction.incRight, Direction.incLeft,
    Direction.incBottom, Direction.incTop, h1, h2]

lemma dupCompare_none (d : Direction) (h1 : d.horiz = none)
    (h2 : d.vert = none) (a b : Element) : dupCompare d a b = 0 := by
  simp [dupCompare, Direction.incRight, Direction.incLeft,
    Direction.incBottom, Direction.incTop, h1, h2]

lemma insertionSort_of_rel_total {r : SelNode → SelNode → Prop}
    [DecidableRel r] (h : ∀ a b, r a b) :
    ∀ l : List SelNode, List.insertionSort r l = l := by
  intro l
  induction l with
  | nil => rfl
  | cons a t ih =>
    rw [List.insertionSort, ih]
    cases t with
    | nil => rfl
    | cons b t2 => simp [List.orderedInsert, h a b]

lemma sorted_insertionSort_key (g : SelNode → ℚ)
    (r : SelNode → SelNode → Prop) [DecidableRel r]
    (hr : ∀ a b, r a b ↔ g a ≤ g b) (l : List SelNode) :
    (List.insertionSort r l).Sorted r := by
  haveI : IsTotal SelNode r := ⟨fun a b => by
    rw [hr, hr]
    exact le_total (g a) (g b)⟩
  haveI : IsTrans SelNode r := ⟨fun a b c hab hbc => by
    rw [hr] at hab hbc ⊢
    exact le_trans hab hbc⟩
  exact List.sorted_insertionSort r l

end SortLemmas

/-- C4: the orchestrator's selection ordering: the sorted selection is a
permutation of the input, sorted descending by x when the direction
includes right, ascending by x for left, else descending by y for
bottom, ascending by y for top, and exactly the input order (stable)
when the direction has no axis component. -/
theorem sortSelection_spec (d : Direction) (sel : List SelNode) :
    (sortSelection d sel).Perm sel ∧
    (d.horiz = some HDir.right →
      (sortSelection d sel).Sorted (fun a b => b.node.x ≤ a.node.x)) ∧
    (d.horiz = some HDir.left →
      (sortSelection d sel).Sorted (fun a b => a.node.x ≤ b.node.x)) ∧
    (d.horiz = none → d.vert = some VDir.bottom →
      (sortSelection d sel).Sorted (fun a b => b.node.y ≤ a.node.y)) ∧
    (d.horiz = none → d.vert = some VDir.top →
      (sortSelection d sel).Sorted (fun a b => a.node.y ≤ b.node.y)) ∧
    (d.horiz = none → d.vert = none → sortSelection d sel = sel) := by
  refine ⟨List.perm_insertionSort _ sel, ?_, ?_, ?_, ?_, ?_⟩
  · intro h
    have hs := sorted_insertionSort_key (fun a => -a.node.x)
      (fun a b => dupCompare d a.node b.node ≤ 0)
      (fun a b => by
        show dupCompare d a.node b.node ≤ 0 ↔ -a.node.x ≤ -b.node.x
        rw [dupCompare_right d h]
        constructor <;> intro <;> linarith) sel
    exact List.Pairwise.imp
      (fun hab => by
        have hab2 : dupCompare d _ _ ≤ 0 := hab
        rw [dupCompare_right d h] at hab2
        linarith) hs
  · intro h
    have hs := sorted_insertionSort_key (fun a => a.node.x)
      (fun a b => dupCompare d a.node b.node ≤ 0)
      (fun a b => by
        show dupCompare d a.node b.node ≤ 0 ↔ a.node.x ≤ b.node.x
        rw [dupCompare_left d h]
        constructor <;> intro <;> linarith) sel
    exact List.Pairwise.imp
      (fun hab => by
        have hab2 : dupCompare d _ _ ≤ 0 := hab
        rw [dupCompare_left d h] at hab2
        linarith) hs
  · intro h1 h2
    have hs := sorted_insertionSort_key (fun a => -a.node.y)
      (fun a b => dupCompare d a.node b.node ≤ 0)
      (fun a b => by
        show dupCompare d a.node b.node ≤ 0 ↔ -a.node.y ≤ -b.node.y
        rw [dupCompare_bottom d h1 h2]
        constructor <;> intro <;> linarith) sel
    exact List.Pairwise.imp
      (fun hab => by
        have hab2 : dupCompare d _ _ ≤ 0 := hab
        rw [dupCompare_bottom d h1 h2] at hab2
        linarith) hs
  · intro h1 h2
    have hs := sorted_insertionSort_key (fun a => a.node.y)
      (fun a b => dupCompare d a.node b.node ≤ 0)
      (fun a b => by
        show dupCompare d a.node b.node ≤ 0 ↔ a.node.y ≤ b.node.y
        rw [dupCompare_top d h1 h2]
        constructor <;> intro <;> linarith) sel
    exact List.Pairwise.imp
      (fun hab => by
        have hab2 : dupCompare d _ _ ≤ 0 := hab
        rw [dupCompare_top d h1 h2] at hab2
        linarith) hs
  · intro h1 h2
    exact insertionSort_of_rel_total
      (fun a b => by rw [dupCompare_none d h1 h2]) sel

/-- Witness for C4: a concrete rightward sort is a sorted permutation,
and a direction with no axis component returns the selection as is. -/
theorem sortSelection_spec_witness :
    (sortSelection ⟨some HDir.right, none⟩
      [⟨none, ⟨1, 0, 0, 10, 10, false⟩⟩,
       ⟨none, ⟨2, 50, 0, 10, 10, false⟩⟩]).Perm
      [⟨none, ⟨1, 0, 0, 10, 10, false⟩⟩,
       ⟨none, ⟨2, 50, 0, 10, 10, false⟩⟩] ∧
    (sortSelection ⟨some HDir.right, none⟩
      [⟨none, ⟨1, 0, 0, 10, 10, false⟩⟩,
       ⟨none, ⟨2, 50, 0, 10, 10, false⟩⟩]).Sorted
      (fun a b => b.node.x ≤ a.node.x) ∧
    sortSelection ⟨none, none⟩ [⟨none, ⟨1, 0, 0, 10, 10, false⟩⟩] =
      [⟨none, ⟨1, 0, 0, 10, 10, false⟩⟩] := by
  have h1 := sortSelection_spec ⟨some HDir.right, none⟩
    [⟨none, ⟨1, 0, 0, 10, 10, false⟩⟩, ⟨none, ⟨2, 50, 0, 10, 10, false⟩⟩]
  have h2 := sortSelection_spec ⟨none, none⟩
    [⟨none, ⟨1, 0, 0, 10, 10, false⟩⟩]
  exact ⟨h1.1, h1.2.1 rfl, h2.2.2.2.2.2 rfl rfl⟩

/-- C7: a direction with no horizontal component changes no x — the
collision displacement leaves every sibling's x unchanged and the clone
is placed at the original's x — and symmetrically a direction with no
vertical component changes no y. -/
theorem direction_axis_frame (d : Direction) (o node : Element)
    (sx sy : ℚ) (excluded : List ℕ) (children : List Element) :
    (d.horiz = none →
      (∀ (i : ℕ) (s : Element), children[i]? = some s →
        ((pushSiblings o d sx sy excluded children)[i]?).map Element.x =
          some s.x) ∧
      clonePosX d node sx = node.x) ∧
    (d.vert = none →
      (∀ (i : ℕ) (s : Element), children[i]? = some s →
        ((pushSiblings o d sx sy excluded children)[i]?).map Element.y =
          some s.y) ∧
      clonePosY d node sy = node.y) := by
  constructor
  · intro hh
    have hdx : dispX d sx = 0 := by
      simp [dispX, Direction.incLeft, Direction.incRight, hh]
    refine ⟨?_, ?_⟩
    · intro i s hs
      rw [pushSiblings_getElem, hs]
      by_cases hm : i ∈ movedIdxs o d sx sy excluded children <;>
        simp [hm, moveEl, hdx]
    · simp [clonePosX, Direction.incLeft, Direction.incRight, hh]
  · intro hv
    have hdy : dispY d sy = 0 := by
      simp [dispY, Direction.incTop, Direction.incBottom, hv]
    refine ⟨?_, ?_⟩
    · intro i s hs
      rw [pushSiblings_getElem, hs]
      by_cases hm : i ∈ movedIdxs o d sx sy excluded children <;>
        simp [hm, moveEl, hdy]
    · simp [clonePosY, Direction.incTop, Direction.incBottom, hv]

/-- Witness for C7: a bottom-only direction leaves a pushed sibling's x
and the clone's x unchanged; a right-only direction leaves y
unchanged. -/
theorem direction_axis_frame_witness :
    ((pushSiblings ⟨0, 0, 0, 100, 100, false⟩ ⟨none, some VDir.bottom⟩
        140 140 [] [⟨1, 150, 0, 100, 100, false⟩])[0]?).map Element.x =
      some (150 : ℚ) ∧
    clonePosX ⟨none, some VDir.bottom⟩ ⟨0, 0, 0, 100, 100, false⟩ 140 =
      (0 : ℚ) ∧
    ((pushSiblings ⟨0, 0, 0, 100, 100, false⟩ ⟨some HDir.right, none⟩
        140 140 [] [⟨1, 150, 0, 100, 100, false⟩])[0]?).map Element.y =
      some (0 : ℚ) ∧
    clonePosY ⟨some HDir.right, none⟩ ⟨0, 0, 0, 100, 100, false⟩ 140 =
      (0 : ℚ) := by
  have h1 := direction_axis_frame ⟨none, some VDir.bottom⟩
    ⟨0, 0, 0, 100, 100, false⟩ ⟨0, 0, 0, 100, 100, false⟩ 140 140 []
    [⟨1, 150, 0, 100, 100, false⟩]
  have h2 := direction_axis_frame ⟨some HDir.right, none⟩
    ⟨0, 0, 0, 100, 100, false⟩ ⟨0, 0, 0, 100, 100, false⟩ 140 140 []
    [⟨1, 150, 0, 100, 100, false⟩]
  obtain ⟨ha, hb⟩ := h1.1 rfl
  obtain ⟨hc, hd⟩ := h2.2 rfl
  exact ⟨ha 0 ⟨1, 150, 0, 100, 100, false⟩ (by decide), hb,
    hc 0 ⟨1, 150, 0, 100, 100, false⟩ (by decide), hd⟩

section LockedLemmas

lemma sameGeom_overlaps (r : Rect) {a b : Element} (h : sameGeom a b) :
    overlapsB r a = overlapsB r b := by
  obtain ⟨_, hx, hy, hw, hh⟩ := h
  simp [overlapsB, hx, hy, hw, hh]

lemma sameGeom_shifted (d : Direction) (sx sy : ℚ) {a b : Element}
    (h : sameGeom a b) :
    shiftedRect a d sx sy = shiftedRect b d sx sy := by
  obtain ⟨_, hx, hy, hw, hh⟩ := h
  simp [shiftedRect, hx, hy, hw, hh]

lemma sameGeom_moveEl (d : Direction) (sx sy : ℚ) {a b : Element}
    (h : sameGeom a b) :
    sameGeom (moveEl d sx sy a) (moveEl d sx sy b) := by
  obtain ⟨hid, hx, hy, hw, hh⟩ := h
  exact ⟨hid, by simp [moveEl, hx], by simp [moveEl, hy],
    by simp [moveEl, hw], by simp [moveEl, hh]⟩

lemma enumFrom_forall2 {R : Element → Element → Prop} :
    ∀ (l1 l2 : List Element), List.Forall₂ R l1 l2 → ∀ n : ℕ,
      List.Forall₂ (fun p q => p.1 = q.1 ∧ R p.2 q.2)
        (l1.enumFrom n) (l2.enumFrom n) := by
  intro l1 l2 h
  induction h with
  | nil => intro n; exact List.Forall₂.nil
  | cons hab htail ih =>
    intro n
    exact List.Forall₂.cons ⟨rfl, hab⟩ (ih (n + 1))

lemma scanList_congr (r : Rect) (d : Direction) (sx sy : ℚ) :
    ∀ (L1 L2 : List (ℕ × Element)) (st : ScanState),
      List.Forall₂ (fun p q => p.1 = q.1 ∧ sameGeom p.2 q.2) L1 L2 →
      scanList r d sx sy L1 st = scanList r d sx sy L2 st := by
  intro L1 L2 st h
  induction h generalizing st with
  | nil => rfl
  | cons hpq htail ih =>
    rename_i p q t1 t2
    obtain ⟨i1, s1⟩ := p
    obtain ⟨i2, s2⟩ := q
    obtain ⟨hi, hg⟩ := hpq
    have hid : s1.id = s2.id := hg.1
    have hov := sameGeom_overlaps r hg
    have hsr := sameGeom_shifted d sx sy hg
    simp only at hi
    simp only [scanList, hi, hid, hov, hsr]
    exact ih _

lemma bfs_congr (d : Direction) (sx sy : ℚ) :
    ∀ (fuel : ℕ) (l1 l2 : List Element) (q : List Rect) (p m : List ℕ),
      List.Forall₂ sameGeom l1 l2 →
      bfsAux l1 d sx sy fuel q p m = bfsAux l2 d sx sy fuel q p m := by
  intro fuel
  induction fuel with
  | zero => intro l1 l2 q p m _; rfl
  | succ fuel ih =>
    intro l1 l2 q p m h
    cases q with
    | nil => rfl
    | cons r rest =>
      simp only [bfsAux, scanRect]
      rw [scanList_congr r d sx sy l1.enum l2.enum _
        (by simpa [List.enum] using enumFrom_forall2 l1 l2 h 0)]
      exact ih l1 l2 _ _ _ h

lemma applyMoves_forall2 (d : Direction) (sx sy : ℚ) (moved : List ℕ) :
    ∀ (l1 l2 : List Element), List.Forall₂ sameGeom l1 l2 → ∀ n : ℕ,
      List.Forall₂ sameGeom (applyMoves d sx sy moved n l1)
        (applyMoves d sx sy moved n l2) := by
  intro l1 l2 h
  induction h with
  | nil => intro n; exact List.Forall₂.nil
  | cons hab htail ih =>
    intro n
    refine List.Forall₂.cons ?_ (ih (n + 1))
    by_cases hm : n ∈ moved
    · simpa [applyMoves, hm] using sameGeom_moveEl d sx sy hab
    · simpa [applyMoves, hm] using hab

end LockedLemmas

/-- C10: collision propagation never consults the locked flag: for two
children lists agreeing on identities and geometry but with arbitrary
locked flags (and originals likewise agreeing), the engine collects
exactly the same indices and produces geometrically identical results —
a locked sibling is displaced exactly as an unlocked one would be. -/
theorem pushSiblings_ignores_locked
    (o1 o2 : Element) (d : Direction) (sx sy : ℚ) (excluded : List ℕ)
    (l1 l2 : List Element)
    (ho : sameGeom o1 o2) (hl : List.Forall₂ sameGeom l1 l2) :
    movedIdxs o1 d sx sy excluded l1 = movedIdxs o2 d sx sy excluded l2 ∧
    List.Forall₂ sameGeom (pushSiblings o1 d sx sy excluded l1)
      (pushSiblings o2 d sx sy excluded l2) := by
  have hlen : l1.length = l2.length := hl.length_eq
  have htr : targetRect o1 d sx sy = targetRect o2 d sx sy := by
    obtain ⟨_, hx, hy, hw, hh⟩ := ho
    simp [targetRect, hx, hy, hw, hh]
  have hmv : movedIdxs o1 d sx sy excluded l1 =
      movedIdxs o2 d sx sy excluded l2 := by
    simp only [movedIdxs, htr, hlen]
    exact congrArg Prod.fst (bfs_congr d sx sy (l2.length + 1) l1 l2 _ _ _ hl)
  refine ⟨hmv, ?_⟩
  simp only [pushSiblings, hmv]
  exact applyMoves_forall2 d sx sy _ l1 l2 hl 0

/-- Witness for C10: the same sibling with locked set and unset is
collected at the same index and pushed to the same position. -/
theorem pushSiblings_ignores_locked_witness :
    movedIdxs ⟨0, 0, 0, 100, 100, false⟩ ⟨some HDir.right, none⟩ 140 140 []
        [⟨1, 150, 0, 100, 100, true⟩] =
      movedIdxs ⟨0, 0, 0, 100, 100, false⟩ ⟨some HDir.right, none⟩ 140 140 []
        [⟨1, 150, 0, 100, 100, false⟩] ∧
    List.Forall₂ sameGeom
      (pushSiblings ⟨0, 0, 0, 100, 100, false⟩ ⟨some HDir.right, none⟩
        140 140 [] [⟨1, 150, 0, 100, 100, true⟩])
      (pushSiblings ⟨0, 0, 0, 100, 100, false⟩ ⟨some HDir.right, none⟩
        140 140 [] [⟨1, 150, 0, 100, 100, false⟩]) :=
  pushSiblings_ignores_locked ⟨0, 0, 0, 100, 100, false⟩
    ⟨0, 0, 0, 100, 100, false⟩ ⟨some HDir.right, none⟩ 140 140 []
    [⟨1, 150, 0, 100, 100, true⟩] [⟨1, 150, 0, 100, 100, false⟩]
    ⟨rfl, rfl, rfl, rfl, rfl⟩
    (List.Forall₂.cons ⟨rfl, rfl, rfl, rfl, rfl⟩ List.Forall₂.nil)

end Duplicate
